import Mathlib

/-!
Verification of the libatrus specification (MyST-flavored Markdown parser and
renderer) against the repository sources.

The repository ships the public C boundary (`src/include/atrus.h`) and the
C API test (`src/tests/c_api/main.c`); the parser and renderer implementation
itself is not under `src/`.  Following the spec, the missing implementation is
modelled here from the spec's own words (sections 2-4, 6, 7): scanner, block
parser with an explicit open-block stack, inline parser with a delimiter-stack
emphasis pass, and the two renderers.  Definitions taken directly from the
header (the error enumeration, the shape of the boundary functions) follow the
header.
-/

namespace Atrus

/-! ## Data model (spec section 3)

Modelled from the spec: the AST node variants exercised by the testable
properties.  Inline nodes `Text`, `Emphasis`, `Strong`; block nodes `Heading`,
`Paragraph`, `CodeFence`, `DirectiveFence`, `ThematicBreak`; the `Document`
root owning an ordered sequence of top-level blocks.  The remaining variants
(List, ListItem, BlockQuote, FrontMatter, Container; CodeSpan, Link, Image,
Role, RawMath, LineBreak) are not touched by any claim and are omitted from
the model. -/

/-- Modelled from the spec: inline node — tagged variant carrying literal
content or nested inline children. -/
inductive Inline where
  | text (s : String)
  | emph (children : List Inline)
  | strong (children : List Inline)

/-- Modelled from the spec: block node — tagged variant with kind-specific
attributes (heading level, fence info string, directive name/argument) and
ordered children. -/
inductive Block where
  | heading (level : Nat) (inlines : List Inline)
  | paragraph (inlines : List Inline)
  | codeFence (info : String) (content : String)
  | directiveFence (dname : String) (arg : String) (children : List Block)
  | thematicBreak

/-- Modelled from the spec: the Document root owns an ordered sequence of
top-level blocks. -/
structure Doc where
  blocks : List Block

/-! ## Scanner (spec section 4.1)

Modelled from the spec: lexes raw text into lines, newline stripped,
normalizing line-ending style; never fails — a truncated final line counts as
complete. -/

/-- Splits a character stream into lines, stripping the terminator and
normalizing CRLF and CR line endings.  `acc` holds the current line reversed. -/
def splitLinesAux : List Char → List Char → List (List Char)
  | [], acc => if acc.isEmpty then [] else [acc.reverse]
  | '\r' :: '\n' :: rest, acc => acc.reverse :: splitLinesAux rest []
  | '\n' :: rest, acc => acc.reverse :: splitLinesAux rest []
  | '\r' :: rest, acc => acc.reverse :: splitLinesAux rest []
  | c :: rest, acc => splitLinesAux rest (c :: acc)

/-- Modelled from the spec: the scanner's line sequence for an input string. -/
def scanLines (s : String) : List (List Char) :=
  splitLinesAux s.data []

/-! ## Character classification helpers -/

/-- Space or tab. -/
def isSpaceChar (c : Char) : Bool :=
  c == ' ' || c == '\t'

/-- Whitespace for flanking purposes; `none` (beginning/end of the text)
counts as whitespace. -/
def isWSOpt : Option Char → Bool
  | none => true
  | some c => c == ' ' || c == '\t' || c == '\n'

/-- ASCII punctuation, by character-code range. -/
def isPunctChar (c : Char) : Bool :=
  let n := c.toNat
  if (33 ≤ n ∧ n ≤ 47) ∨ (58 ≤ n ∧ n ≤ 64) ∨ (91 ≤ n ∧ n ≤ 96) ∨ (123 ≤ n ∧ n ≤ 126)
  then true else false

/-- Punctuation for flanking purposes; boundaries are not punctuation. -/
def isPunctOpt : Option Char → Bool
  | none => false
  | some c => isPunctChar c

/-- Strip leading spaces and tabs. -/
def trimLeft (l : List Char) : List Char :=
  l.dropWhile isSpaceChar

/-- Strip leading and trailing spaces and tabs. -/
def trimBoth (l : List Char) : List Char :=
  ((trimLeft ((trimLeft l).reverse)).reverse)

/-- Join lines back together with newline separators (used for paragraph and
code-fence content assembled from several lines). -/
def joinLines : List (List Char) → List Char
  | [] => []
  | [l] => l
  | l :: rest => l ++ '\n' :: joinLines rest

/-! ## Inline parser (spec section 4.3)

Modelled from the spec: emphasis/strong resolution via a left-to-right
delimiter-stack scan.  Each closing delimiter run matches the nearest
compatible (same-character) open run on the stack, honoring flanking rules;
unmatched delimiters degrade to literal text.  The other inline constructs
(code spans, links, roles, raw math) are not exercised by any claim; their
characters flow through as literal text. -/

/-- A delimiter: candidate emphasis-run record (position, character, run
length, and the characters adjacent to the run, from which the open/close
flags are derived).  Parser-internal only, per the spec's data model. -/
structure Delim where
  pos : Nat
  ch : Char
  len : Nat
  prev : Option Char
  next : Option Char

/-- Modelled from the spec: a run may open emphasis when it is left-flanking
(not followed by whitespace, and not followed by punctuation unless preceded
by whitespace or punctuation). -/
def Delim.canOpen (d : Delim) : Bool :=
  !isWSOpt d.next && (!isPunctOpt d.next || isWSOpt d.prev || isPunctOpt d.prev)

/-- Modelled from the spec: a run may close emphasis when it is
right-flanking. -/
def Delim.canClose (d : Delim) : Bool :=
  !isWSOpt d.prev && (!isPunctOpt d.prev || isWSOpt d.next || isPunctOpt d.next)

/-- Working element of the delimiter-stack pass: either resolved inline
content or a pending delimiter run. -/
inductive Elem where
  | node (i : Inline)
  | delim (d : Delim)

/-- Emphasis delimiter characters. -/
def isDelimChar (c : Char) : Bool :=
  c == '*' || c == '_'

/-- Single-character raw token: an ordinary character, or one delimiter
character annotated with its position and both neighbors. -/
inductive RawTok where
  | ch (c : Char)
  | d (pos : Nat) (c : Char) (prev next : Option Char)

/-- First tokenizer pass: annotate every delimiter character with its
position and neighbors. -/
def rawToks : Option Char → Nat → List Char → List RawTok
  | _, _, [] => []
  | prev, pos, c :: rest =>
      (if isDelimChar c then RawTok.d pos c prev rest.head? else RawTok.ch c)
        :: rawToks (some c) (pos + 1) rest

/-- Second tokenizer pass: merge adjacent identical delimiter characters into
maximal delimiter runs and adjacent ordinary characters into text nodes.  A
run's flanking context is the character before its first and after its last
delimiter character. -/
def groupToks : List RawTok → List Elem
  | [] => []
  | RawTok.ch c :: rest =>
      match groupToks rest with
      | Elem.node (Inline.text s) :: tail => Elem.node (Inline.text (c.toString ++ s)) :: tail
      | tail => Elem.node (Inline.text c.toString) :: tail
  | RawTok.d pos c prev next :: rest =>
      match groupToks rest with
      | Elem.delim d :: tail =>
          if c == d.ch && pos + 1 == d.pos then
            Elem.delim { pos := pos, ch := c, len := d.len + 1, prev := prev, next := d.next } :: tail
          else
            Elem.delim { pos := pos, ch := c, len := 1, prev := prev, next := next } :: Elem.delim d :: tail
      | tail => Elem.delim { pos := pos, ch := c, len := 1, prev := prev, next := next } :: tail

/-- The delimiter-stack pass's input for a block's literal text. -/
def inlineElems (cs : List Char) : List Elem :=
  groupToks (rawToks none 0 cs)

/-- A delimiter degrades to the literal text of its run. -/
def delimText (d : Delim) : Inline :=
  Inline.text (String.mk (List.replicate d.len d.ch))

/-- Resolve a working element to an inline node (pending delimiters degrade
to literal text). -/
def elemToInline : Elem → Inline
  | Elem.node i => i
  | Elem.delim d => delimText d

/-- Merge adjacent text nodes. -/
def coalesce : List Inline → List Inline
  | [] => []
  | Inline.text a :: rest =>
      match coalesce rest with
      | Inline.text b :: tail => Inline.text (a ++ b) :: tail
      | tail => Inline.text a :: tail
  | x :: rest => x :: coalesce rest

/-- Search backwards (stack order: innermost first) for the nearest open run
of the same character.  Returns the elements skipped over (still reversed),
the opener, and the remaining stack below it. -/
def findOpenerRev (c : Char) : List Elem → Option (List Elem × Delim × List Elem)
  | [] => none
  | Elem.delim d :: rest =>
      if d.ch == c && d.canOpen && decide (1 ≤ d.len) then
        some ([], d, rest)
      else
        match findOpenerRev c rest with
        | some (btw, op, below) => some (Elem.delim d :: btw, op, below)
        | none => none
  | e :: rest =>
      match findOpenerRev c rest with
      | some (btw, op, below) => some (e :: btw, op, below)
      | none => none

/-- Left-to-right scan for the earliest closing run that has a compatible
opener on the stack.  `preRev` is the already-scanned prefix, reversed.
Returns the stack below the opener (reversed), the opener, the elements
between opener and closer (reversed), the closer, and the unscanned suffix. -/
def scanClosers : List Elem → List Elem → Option (List Elem × Delim × List Elem × Delim × List Elem)
  | _, [] => none
  | preRev, Elem.delim d :: rest =>
      if d.canClose && decide (1 ≤ d.len) then
        match findOpenerRev d.ch preRev with
        | some (btw, op, below) => some (below, op, btw, d, rest)
        | none => scanClosers (Elem.delim d :: preRev) rest
      else scanClosers (Elem.delim d :: preRev) rest
  | preRev, e :: rest => scanClosers (e :: preRev) rest

/-- Positions of the pending delimiters of a working list (each position
identifies one pushed delimiter run). -/
def delimIds : List Elem → List Nat
  | [] => []
  | Elem.delim d :: rest => d.pos :: delimIds rest
  | Elem.node _ :: rest => delimIds rest

/-- Total pending delimiter length; the measure that bounds the number of
match steps. -/
def totalDelimLen : List Elem → Nat
  | [] => 0
  | Elem.delim d :: rest => d.len + totalDelimLen rest
  | Elem.node _ :: rest => totalDelimLen rest

/-- One match step of the delimiter-stack pass: find the earliest closer with
a compatible opener, build the emphasis/strong node from the elements between
them (preferring the strong match when both runs allow it), and keep any
leftover run characters as pending delimiters.  Also reports the positions of
the delimiters popped by this step. -/
def emphStep (es : List Elem) : Option (List Elem × List Nat) :=
  match scanClosers [] es with
  | none => none
  | some (below, op, btw, cl, suf) =>
      let d := if 2 ≤ op.len ∧ 2 ≤ cl.len then 2 else 1
      let children := coalesce ((btw.reverse).map elemToInline)
      let nd := if d == 2 then Inline.strong children else Inline.emph children
      let opRest := if d < op.len then [Elem.delim { op with len := op.len - d }] else []
      let clRest := if d < cl.len then [Elem.delim { cl with len := cl.len - d }] else []
      let popped := (if d < op.len then [] else [op.pos])
        ++ delimIds btw.reverse
        ++ (if d < cl.len then [] else [cl.pos])
      some (below.reverse ++ opRest ++ Elem.node nd :: clRest ++ suf, popped)

/-- The delimiter-stack pass: repeat match steps while any closer can match,
within the given fuel.  Returns the final working list and the positions of
all popped delimiters.  (`totalDelimLen` fuel always suffices; see the
termination theorem.) -/
def processEmphT : Nat → List Elem → List Elem × List Nat
  | 0, es => (es, [])
  | n + 1, es =>
      match emphStep es with
      | none => (es, [])
      | some (es', pops) =>
          let r := processEmphT n es'
          (r.1, pops ++ r.2)

/-- Modelled from the spec: resolve one block's literal text into its
inline-node sequence.  Unmatched delimiters degrade to literal text; no
inline-level failure exists. -/
def parseInlines (cs : List Char) : List Inline :=
  let es := inlineElems cs
  coalesce (((processEmphT (totalDelimLen es) es).1).map elemToInline)

/-! ## Block parser (spec section 4.2)

Modelled from the spec: a stack of currently open blocks; new blocks open in
fixed priority (thematic break > ATX heading > fence (code or directive) >
paragraph); directive fences are recognized structurally only (name, optional
argument, recursively parsed child blocks); end-of-input closes all open
blocks innermost-to-outermost, including unterminated fences (implicit close,
not an error).  The block-quote and list-item rules are not exercised by any
claim and are omitted from the model. -/

/-- An open (not yet closed) directive fence on the block stack: its name,
argument, and the completed child blocks so far (reversed). -/
structure OpenDir where
  dname : String
  arg : String
  children : List Block

/-- The innermost open leaf block: nothing, an open paragraph, or an open
code fence (accumulated lines reversed). -/
inductive Leaf where
  | leafNone
  | leafPara (ls : List (List Char))
  | leafCode (info : String) (ls : List (List Char))

/-- Block-parser state: completed top-level blocks (reversed), the stack of
open directive fences (innermost first), and the open leaf. -/
structure PState where
  root : List Block
  dirs : List OpenDir
  leaf : Leaf

/-- The initial block-parser state. -/
def initState : PState :=
  { root := [], dirs := [], leaf := Leaf.leafNone }

/-- Add a completed block to the innermost open container (or to the
document root). -/
def addBlock (st : PState) (b : Block) : PState :=
  match st.dirs with
  | [] => { st with root := b :: st.root }
  | d :: ds => { st with dirs := { d with children := b :: d.children } :: ds }

/-- Close the open leaf block, if any: a paragraph's joined lines go through
the inline parser; a code fence keeps its literal content. -/
def closeLeaf (st : PState) : PState :=
  match st.leaf with
  | Leaf.leafNone => st
  | Leaf.leafPara ls =>
      addBlock { st with leaf := Leaf.leafNone }
        (Block.paragraph (parseInlines (joinLines ls.reverse)))
  | Leaf.leafCode info ls =>
      addBlock { st with leaf := Leaf.leafNone }
        (Block.codeFence info (String.mk (joinLines ls.reverse)))

/-- Close the innermost open directive fence, publishing it as a block of its
parent. -/
def closeDir (st : PState) : PState :=
  let st' := closeLeaf st
  match st'.dirs with
  | [] => st'
  | d :: ds =>
      addBlock { st' with dirs := ds }
        (Block.directiveFence d.dname d.arg d.children.reverse)

/-- A line closing an open code fence: its trimmed form is a run of three or
more backquote characters. -/
def isCodeFenceClose (l : List Char) : Bool :=
  let t := trimBoth l
  decide (3 ≤ t.length) && t.all (fun c => c == '`')

/-- A thematic-break line: three or more of the same marker character and
nothing else. -/
def isThematicBreak (l : List Char) : Bool :=
  let t := trimBoth l
  match t with
  | [] => false
  | c :: _ =>
      (c == '-' || c == '*' || c == '_') && decide (3 ≤ t.length)
        && t.all (fun x => x == c)

/-- Count the leading `#` characters of a line. -/
def countHashes : List Char → Nat
  | '#' :: rest => countHashes rest + 1
  | _ => 0

/-- An ATX heading line: one to six `#` followed by a space or end of line. -/
def isAtxHeading (l : List Char) : Bool :=
  let n := countHashes l
  let rest := l.drop n
  decide (1 ≤ n) && decide (n ≤ 6)
    && (rest.isEmpty || isSpaceChar (rest.headD ' '))

/-- Process one scanner line against the block-parser state, per the spec's
fixed opening priority and continuation rules. -/
def processLine (st : PState) (l : List Char) : PState :=
  match st.leaf with
  | Leaf.leafCode info ls =>
      if isCodeFenceClose l then closeLeaf st
      else { st with leaf := Leaf.leafCode info (l :: ls) }
  | _ =>
      let t := trimBoth l
      match t with
      | [] => closeLeaf st
      | _ =>
        if isThematicBreak l then
          addBlock (closeLeaf st) Block.thematicBreak
        else if isAtxHeading l then
          let n := countHashes t
          addBlock (closeLeaf st)
            (Block.heading n (parseInlines (trimBoth (t.drop n))))
        else
          match t with
          | ':' :: ':' :: ':' :: rest =>
              if (trimBoth rest).isEmpty && !st.dirs.isEmpty then
                closeDir st
              else
                let r := trimLeft rest
                let dn := r.takeWhile (fun c => !isSpaceChar c)
                let ar := trimBoth (r.dropWhile (fun c => !isSpaceChar c))
                { closeLeaf st with
                    dirs := { dname := String.mk dn, arg := String.mk ar, children := [] }
                      :: (closeLeaf st).dirs }
          | '`' :: '`' :: '`' :: rest =>
              { closeLeaf st with leaf := Leaf.leafCode (String.mk (trimBoth rest)) [] }
          | _ =>
              match st.leaf with
              | Leaf.leafPara ls => { st with leaf := Leaf.leafPara (l :: ls) }
              | _ => { closeLeaf st with leaf := Leaf.leafPara [l] }

/-- Close all open directive fences, innermost to outermost. -/
def closeAllDirs : Nat → PState → PState
  | 0, st => st
  | n + 1, st => closeAllDirs n (closeDir st)

/-- End-of-input: close the open leaf, then every open block
innermost-to-outermost (implicit close, not an error). -/
def finishState (st : PState) : Doc :=
  let st' := closeLeaf st
  let st'' := closeAllDirs st'.dirs.length st'
  { blocks := st''.root.reverse }

/-- Modelled from the spec: the whole parse — scanner, block parser, inline
parser — as one total function from input text to a document tree.  The
grammar is total: every finite input has a defined tree via the fallback
rules. -/
def parseDoc (s : String) : Doc :=
  finishState ((scanLines s).foldl processLine initState)

/-! ## Hypertext renderer (spec section 4.6)

Modelled from the spec: fixed kind-to-tag mapping (Heading and its level,
Paragraph, Emphasis, Strong, CodeFence as pre-plus-code with a language
class, ThematicBreak as a void element); directive fences without a built-in
mapping render as a generic div carrying the directive name in a data
attribute, wrapping the rendered children.  Text is escaped for the five
reserved hypertext characters; attribute values go through the same escape,
which in particular quote-escapes them.  Void elements emit no closing tag. -/

/-- Escape one character for hypertext output: each of the five reserved
characters becomes its entity, every other character stands for itself. -/
def htmlEscapeChar (c : Char) : List Char :=
  if c == '<' then ['&', 'l', 't', ';']
  else if c == '>' then ['&', 'g', 't', ';']
  else if c == '&' then ['&', 'a', 'm', 'p', ';']
  else if c == '"' then ['&', 'q', 'u', 'o', 't', ';']
  else if c.toNat == 39 then ['&', '#', '3', '9', ';']
  else [c]

/-- Escape a character list for hypertext output. -/
def htmlEscapeList : List Char → List Char
  | [] => []
  | c :: cs => htmlEscapeChar c ++ htmlEscapeList cs

/-- Escape a string for hypertext output (five reserved characters). -/
def htmlEscape (s : String) : String :=
  String.mk (htmlEscapeList s.data)

mutual

/-- Render one inline node as escaped hypertext markup. -/
def renderInline : Inline → String
  | Inline.text s => htmlEscape s
  | Inline.emph cs => "<em>" ++ renderInlines cs ++ "</em>"
  | Inline.strong cs => "<strong>" ++ renderInlines cs ++ "</strong>"

/-- Render an inline sequence as escaped hypertext markup. -/
def renderInlines : List Inline → String
  | [] => ""
  | i :: rest => renderInline i ++ renderInlines rest

end

mutual

/-- Render one block node as escaped hypertext markup. -/
def renderBlock : Block → String
  | Block.heading n is => "<h" ++ toString n ++ ">" ++ renderInlines is ++ "</h" ++ toString n ++ ">"
  | Block.paragraph is => "<p>" ++ renderInlines is ++ "</p>"
  | Block.codeFence info content =>
      "<pre><code class=\"language-" ++ htmlEscape info ++ "\">"
        ++ htmlEscape content ++ "</code></pre>"
  | Block.directiveFence dn _ cs =>
      "<div data-directive=\"" ++ htmlEscape dn ++ "\">" ++ renderBlocks cs ++ "</div>"
  | Block.thematicBreak => "<hr>"

/-- Render a block sequence as escaped hypertext markup. -/
def renderBlocks : List Block → String
  | [] => ""
  | b :: rest => renderBlock b ++ renderBlocks rest

end

/-- Modelled from the spec: the hypertext renderer — a read-only traversal of
the tree producing the output text. -/
def renderHtmlDoc (d : Doc) : String :=
  renderBlocks d.blocks

/-! Buffer-passing formulation of the hypertext renderer.  The implementation
appends to an output buffer as it walks the tree; these definitions make the
buffer explicit so that independence from pre-existing buffer contents is a
provable statement rather than an artifact of the model. -/

mutual

/-- Render one inline node by appending to an output buffer. -/
def renderInlineAcc : String → Inline → String
  | acc, Inline.text s => acc ++ htmlEscape s
  | acc, Inline.emph cs => renderInlinesAcc (acc ++ "<em>") cs ++ "</em>"
  | acc, Inline.strong cs => renderInlinesAcc (acc ++ "<strong>") cs ++ "</strong>"

/-- Render an inline sequence by appending to an output buffer. -/
def renderInlinesAcc : String → List Inline → String
  | acc, [] => acc
  | acc, i :: rest => renderInlinesAcc (renderInlineAcc acc i) rest

end

mutual

/-- Render one block node by appending to an output buffer. -/
def renderBlockAcc : String → Block → String
  | acc, Block.heading n is =>
      renderInlinesAcc (acc ++ "<h" ++ toString n ++ ">") is ++ "</h" ++ toString n ++ ">"
  | acc, Block.paragraph is => renderInlinesAcc (acc ++ "<p>") is ++ "</p>"
  | acc, Block.codeFence info content =>
      acc ++ "<pre><code class=\"language-" ++ htmlEscape info ++ "\">"
        ++ htmlEscape content ++ "</code></pre>"
  | acc, Block.directiveFence dn _ cs =>
      renderBlocksAcc (acc ++ "<div data-directive=\"" ++ htmlEscape dn ++ "\">") cs ++ "</div>"
  | acc, Block.thematicBreak => acc ++ "<hr>"

/-- Render a block sequence by appending to an output buffer. -/
def renderBlocksAcc : String → List Block → String
  | acc, [] => acc
  | acc, b :: rest => renderBlocksAcc (renderBlockAcc acc b) rest

end

/-- The buffer-passing hypertext render of a whole document. -/
def renderHtmlDocAcc (buf : String) (d : Doc) : String :=
  renderBlocksAcc buf d.blocks

/-! ## Structured renderer (spec section 4.5)

Modelled from the spec: one object per node with fixed keys — `type` (kind
tag), `children` (ordered array, present only for kinds with children), and
kind-specific attribute keys.  Text and attribute strings are escaped per
standard string-escaping rules (control characters, quote, backslash).
Output is a single root object. -/

/-- Opening brace of a structured-output object. -/
def obr : String := "\x7b"

/-- Closing brace of a structured-output object. -/
def cbr : String := "\x7d"

/-- Hexadecimal digit. -/
def hexDigit (n : Nat) : Char :=
  "0123456789abcdef".data.getD n '0'

/-- Escape one character for the structured output: quote, backslash, and
control characters are escaped, every other character stands for itself. -/
def jsonEscapeChar (c : Char) : List Char :=
  let n := c.toNat
  if n == 34 then ['\\', '"']
  else if n == 92 then ['\\', '\\']
  else if n == 10 then ['\\', 'n']
  else if n == 13 then ['\\', 'r']
  else if n == 9 then ['\\', 't']
  else if n < 32 then ['\\', 'u', '0', '0', hexDigit (n / 16), hexDigit (n % 16)]
  else [c]

/-- Escape a character list for the structured output. -/
def jsonEscapeList : List Char → List Char
  | [] => []
  | c :: cs => jsonEscapeChar c ++ jsonEscapeList cs

/-- A structured-output string literal: escaped and quoted. -/
def jsonStr (s : String) : String :=
  "\"" ++ String.mk (jsonEscapeList s.data) ++ "\""

mutual

/-- Serialize one inline node as a structured-output object. -/
def jsonInline : Inline → String
  | Inline.text s => obr ++ "\"type\":\"text\",\"value\":" ++ jsonStr s ++ cbr
  | Inline.emph cs => obr ++ "\"type\":\"emphasis\",\"children\":[" ++ jsonInlines cs ++ "]" ++ cbr
  | Inline.strong cs => obr ++ "\"type\":\"strong\",\"children\":[" ++ jsonInlines cs ++ "]" ++ cbr

/-- Serialize an inline sequence as comma-separated objects. -/
def jsonInlines : List Inline → String
  | [] => ""
  | [i] => jsonInline i
  | i :: rest => jsonInline i ++ "," ++ jsonInlines rest

end

mutual

/-- Serialize one block node as a structured-output object. -/
def jsonBlock : Block → String
  | Block.heading n is =>
      obr ++ "\"type\":\"heading\",\"level\":" ++ toString n
        ++ ",\"children\":[" ++ jsonInlines is ++ "]" ++ cbr
  | Block.paragraph is =>
      obr ++ "\"type\":\"paragraph\",\"children\":[" ++ jsonInlines is ++ "]" ++ cbr
  | Block.codeFence info content =>
      obr ++ "\"type\":\"code_fence\",\"info\":" ++ jsonStr info
        ++ ",\"content\":" ++ jsonStr content ++ cbr
  | Block.directiveFence dn arg cs =>
      obr ++ "\"type\":\"directive\",\"name\":" ++ jsonStr dn
        ++ ",\"argument\":" ++ jsonStr arg
        ++ ",\"children\":[" ++ jsonBlocks cs ++ "]" ++ cbr
  | Block.thematicBreak => obr ++ "\"type\":\"thematic_break\"" ++ cbr

/-- Serialize a block sequence as comma-separated objects. -/
def jsonBlocks : List Block → String
  | [] => ""
  | [b] => jsonBlock b
  | b :: rest => jsonBlock b ++ "," ++ jsonBlocks rest

end

/-- Modelled from the spec: the structured renderer — a single root object
whose type matches the document kind. -/
def renderJsonDoc (d : Doc) : String :=
  obr ++ "\"type\":\"document\",\"children\":[" ++ jsonBlocks d.blocks ++ "]" ++ cbr

/-! ## The C boundary (src/include/atrus.h, src/tests/c_api/main.c)

The error enumeration and the shapes of the boundary functions come from the
header.  Their behavior (which outcome occurs when, what the out-parameters
receive) is not under `src/` and is modelled from the spec: `ReadFailure`
when the source cannot be obtained (modelled as a missing input string),
`OtherError` for any other construction failure (modelled by a simulated
allocation-failure flag), no tree on failure; the renderers return the
output's length, or a negative sentinel and no output on allocation-class
failure. -/

/-- The parse result codes of `atrus.h` (`atrus_parse_error_t`). -/
inductive atrus_parse_error_t where
  | ATRUS_PARSE_SUCCESS
  | ATRUS_PARSE_READ_FAILED
  | ATRUS_PARSE_OTHER_ERROR
  deriving DecidableEq

/-- The numeric value each enumerator takes in `atrus.h`. -/
def atrus_parse_error_t.code : atrus_parse_error_t → Nat
  | ATRUS_PARSE_SUCCESS => 0
  | ATRUS_PARSE_READ_FAILED => 1
  | ATRUS_PARSE_OTHER_ERROR => 2

/-- Modelled from the spec: `atrus_ast_parse`.  `src?` is the source text,
`none` when the source cannot be obtained; `allocFail` simulates an
allocation-class construction failure.  Returns the error code and the tree
the out-parameter receives (no tree on failure). -/
def atrus_ast_parse (src? : Option String) (allocFail : Bool) :
    atrus_parse_error_t × Option Doc :=
  match src? with
  | none => (atrus_parse_error_t.ATRUS_PARSE_READ_FAILED, none)
  | some s =>
      if allocFail then (atrus_parse_error_t.ATRUS_PARSE_OTHER_ERROR, none)
      else (atrus_parse_error_t.ATRUS_PARSE_SUCCESS, some (parseDoc s))

/-- Modelled from the spec: `atrus_render_json`.  Returns the length of the
rendered string and the string itself, or a negative sentinel and no string
on allocation-class failure. -/
def atrus_render_json (root : Doc) (allocFail : Bool) : Int × Option String :=
  if allocFail then (-1, none)
  else ((renderJsonDoc root).length, some (renderJsonDoc root))

/-- Modelled from the spec: `atrus_render_html` — declared nowhere in
`atrus.h` but called by `src/tests/c_api/main.c` with the identical contract
shape as `atrus_render_json`. -/
def atrus_render_html (root : Doc) (allocFail : Bool) : Int × Option String :=
  if allocFail then (-1, none)
  else ((renderHtmlDoc root).length, some (renderHtmlDoc root))

/-! ## Buffer independence of the hypertext renderer -/

mutual

/-- Rendering an inline node into a buffer appends exactly its
buffer-independent render. -/
theorem renderInlineAcc_eq (acc : String) (i : Inline) :
    renderInlineAcc acc i = acc ++ renderInline i := by
  cases i with
  | text s => simp [renderInlineAcc, renderInline]
  | emph cs =>
      simp only [renderInlineAcc, renderInline]
      rw [renderInlinesAcc_eq (acc ++ "<em>")]
      simp [String.append_assoc]
  | strong cs =>
      simp only [renderInlineAcc, renderInline]
      rw [renderInlinesAcc_eq (acc ++ "<strong>")]
      simp [String.append_assoc]

/-- Rendering an inline sequence into a buffer appends exactly its
buffer-independent render. -/
theorem renderInlinesAcc_eq (acc : String) (is : List Inline) :
    renderInlinesAcc acc is = acc ++ renderInlines is := by
  cases is with
  | nil => simp [renderInlinesAcc, renderInlines]
  | cons i tl =>
      simp only [renderInlinesAcc, renderInlines]
      rw [renderInlineAcc_eq acc i, renderInlinesAcc_eq (acc ++ renderInline i)]
      simp [String.append_assoc]

end

mutual

/-- Rendering a block node into a buffer appends exactly its
buffer-independent render. -/
theorem renderBlockAcc_eq (acc : String) (b : Block) :
    renderBlockAcc acc b = acc ++ renderBlock b := by
  cases b with
  | heading n is =>
      simp only [renderBlockAcc, renderBlock]
      rw [renderInlinesAcc_eq]
      simp [String.append_assoc]
  | paragraph is =>
      simp only [renderBlockAcc, renderBlock]
      rw [renderInlinesAcc_eq (acc ++ "<p>")]
      simp [String.append_assoc]
  | codeFence info content =>
      simp [renderBlockAcc, renderBlock, String.append_assoc]
  | directiveFence dn arg cs =>
      simp only [renderBlockAcc, renderBlock]
      rw [renderBlocksAcc_eq]
      simp [String.append_assoc]
  | thematicBreak => simp [renderBlockAcc, renderBlock]

/-- Rendering a block sequence into a buffer appends exactly its
buffer-independent render. -/
theorem renderBlocksAcc_eq (acc : String) (bs : List Block) :
    renderBlocksAcc acc bs = acc ++ renderBlocks bs := by
  cases bs with
  | nil => simp [renderBlocksAcc, renderBlocks]
  | cons b tl =>
      simp only [renderBlocksAcc, renderBlocks]
      rw [renderBlockAcc_eq acc b, renderBlocksAcc_eq (acc ++ renderBlock b)]
      simp [String.append_assoc]

end

/-! ## Claim theorems -/

/-- C1: every finite input string parses successfully absent simulated
allocation failure, yielding a defined tree; the fallback rules hold —
an unmatched delimiter becomes literal text, an unterminated fence is
implicitly closed, and an unknown directive becomes a generic container. -/
theorem c1_parse_totality :
    (∀ s : String, ∃ d : Doc,
        atrus_ast_parse (some s) false =
          (atrus_parse_error_t.ATRUS_PARSE_SUCCESS, some d))
    ∧ parseDoc "*a" = ⟨[Block.paragraph [Inline.text "*a"]]⟩
    ∧ parseDoc "```py\ncode" = ⟨[Block.codeFence "py" "code"]⟩
    ∧ parseDoc ":::mystery\nx\n:::" =
        ⟨[Block.directiveFence "mystery" "" [Block.paragraph [Inline.text "x"]]]⟩ :=
  ⟨fun s => ⟨parseDoc s, rfl⟩, rfl, rfl, rfl⟩

/-- C2: every parse returns exactly one of the three outcomes — success,
read failure, or other error — and the out-parameter receives a tree exactly
when the outcome is success: a tree or nothing. -/
theorem c2_parse_outcomes (src? : Option String) (allocFail : Bool) :
    ((atrus_ast_parse src? allocFail).1 = atrus_parse_error_t.ATRUS_PARSE_SUCCESS ∨
      (atrus_ast_parse src? allocFail).1 = atrus_parse_error_t.ATRUS_PARSE_READ_FAILED ∨
      (atrus_ast_parse src? allocFail).1 = atrus_parse_error_t.ATRUS_PARSE_OTHER_ERROR)
    ∧ ((atrus_ast_parse src? allocFail).1 = atrus_parse_error_t.ATRUS_PARSE_SUCCESS ↔
        ∃ d, (atrus_ast_parse src? allocFail).2 = some d) := by
  cases src? <;> cases allocFail <;> simp [atrus_ast_parse]

/-- C3: the structured render either succeeds with a non-negative length
equal to the produced string's length, or fails with a negative sentinel and
no output; absent allocation failure a valid tree always renders. -/
theorem c3_render_json_contract (root : Doc) (allocFail : Bool) :
    ((0 ≤ (atrus_render_json root allocFail).1 ∧
        ∃ s, (atrus_render_json root allocFail).2 = some s ∧
          (atrus_render_json root allocFail).1 = s.length)
      ∨ ((atrus_render_json root allocFail).1 < 0 ∧
          (atrus_render_json root allocFail).2 = none))
    ∧ (0 ≤ (atrus_render_json root false).1 ∧
        (atrus_render_json root false).2 ≠ none) := by
  cases allocFail <;> simp [atrus_render_json]

/-- C4: the boundary's hypertext render has the identical contract to the
structured render — success yields the output string and its length,
failure a negative sentinel and no output, under the same failure
condition. -/
theorem c4_render_html_contract (root : Doc) (allocFail : Bool) :
    ((0 ≤ (atrus_render_html root allocFail).1 ∧
        ∃ s, (atrus_render_html root allocFail).2 = some s ∧
          (atrus_render_html root allocFail).1 = s.length)
      ∨ ((atrus_render_html root allocFail).1 < 0 ∧
          (atrus_render_html root allocFail).2 = none))
    ∧ ((atrus_render_html root allocFail).1 < 0 ↔
        (atrus_render_json root allocFail).1 < 0) := by
  cases allocFail with
  | true => simp [atrus_render_html, atrus_render_json]
  | false =>
      simp only [atrus_render_html, atrus_render_json, if_neg Bool.false_ne_true]
      refine ⟨Or.inl ⟨by omega, renderHtmlDoc root, rfl, rfl⟩, by omega⟩

/-- C6: rendering a tree into an output buffer appends a byte string
determined by the tree alone; hence two hypertext render calls over the same
tree, each with its own independent buffer, produce byte-identical output. -/
theorem c6_render_deterministic (d : Doc) (buf : String) :
    renderHtmlDocAcc buf d = buf ++ renderHtmlDoc d := by
  simp [renderHtmlDocAcc, renderHtmlDoc, renderBlocksAcc_eq]

/-- C7: the input `:::foo<nl>content<nl>:::` parses to exactly one
DirectiveFence named `foo` with exactly one Paragraph child `content`, and
its hypertext render is exactly the generic data-directive div. -/
theorem c7_directive_fallback :
    parseDoc ":::foo\ncontent\n:::" =
      ⟨[Block.directiveFence "foo" "" [Block.paragraph [Inline.text "content"]]]⟩
    ∧ renderHtmlDoc (parseDoc ":::foo\ncontent\n:::") =
      "<div data-directive=\"foo\"><p>content</p></div>" :=
  ⟨rfl, rfl⟩

/-- C8: in `*a _b* c_` the star pair resolves first per left-to-right
discovery, the emphasis spanning exactly `a _b`, and the unmatched
underscore delimiters degrade to literal text. -/
theorem c8_emphasis_tiebreak :
    parseInlines ("*a _b* c_".data) =
      [Inline.emph [Inline.text "a _b"], Inline.text " c_"]
    ∧ parseDoc "*a _b* c_" =
      ⟨[Block.paragraph [Inline.emph [Inline.text "a _b"], Inline.text " c_"]]⟩ :=
  ⟨rfl, rfl⟩

/-- C10: the parse result codes are the fixed three-value enumeration with
success 0, read failure 1, other error 2; the values are pairwise distinct,
exhaustive, and every parse result carries one of them. -/
theorem c10_error_codes :
    atrus_parse_error_t.code atrus_parse_error_t.ATRUS_PARSE_SUCCESS = 0
    ∧ atrus_parse_error_t.code atrus_parse_error_t.ATRUS_PARSE_READ_FAILED = 1
    ∧ atrus_parse_error_t.code atrus_parse_error_t.ATRUS_PARSE_OTHER_ERROR = 2
    ∧ (∀ e : atrus_parse_error_t,
        e = atrus_parse_error_t.ATRUS_PARSE_SUCCESS ∨
        e = atrus_parse_error_t.ATRUS_PARSE_READ_FAILED ∨
        e = atrus_parse_error_t.ATRUS_PARSE_OTHER_ERROR)
    ∧ atrus_parse_error_t.code atrus_parse_error_t.ATRUS_PARSE_SUCCESS ≠
        atrus_parse_error_t.code atrus_parse_error_t.ATRUS_PARSE_READ_FAILED
    ∧ atrus_parse_error_t.code atrus_parse_error_t.ATRUS_PARSE_SUCCESS ≠
        atrus_parse_error_t.code atrus_parse_error_t.ATRUS_PARSE_OTHER_ERROR
    ∧ atrus_parse_error_t.code atrus_parse_error_t.ATRUS_PARSE_READ_FAILED ≠
        atrus_parse_error_t.code atrus_parse_error_t.ATRUS_PARSE_OTHER_ERROR
    ∧ (∀ (src? : Option String) (af : Bool),
        ((atrus_ast_parse src? af).1).code = 0 ∨
        ((atrus_ast_parse src? af).1).code = 1 ∨
        ((atrus_ast_parse src? af).1).code = 2) := by
  refine ⟨rfl, rfl, rfl, fun e => by cases e <;> simp, by decide, by decide, by decide, ?_⟩
  intro src? af
  cases src? <;> cases af <;> simp [atrus_ast_parse, atrus_parse_error_t.code]

/-! ## Escaping (claim C5) -/


/-- No raw left angle bracket and no raw double quote. -/
def noLtQt (l : List Char) : Bool :=
  l.all fun c => !(c == '<') && !(c == '"')

/-- The character list begins with the tail of one of the five entities. -/
def entPrefix : List Char → Bool
  | 'l' :: 't' :: ';' :: _ => true
  | 'g' :: 't' :: ';' :: _ => true
  | 'a' :: 'm' :: 'p' :: ';' :: _ => true
  | 'q' :: 'u' :: 'o' :: 't' :: ';' :: _ => true
  | '#' :: '3' :: '9' :: ';' :: _ => true
  | _ => false

/-- Every ampersand in the character list starts one of the five entities. -/
def ampOk : List Char → Bool
  | [] => true
  | c :: cs => (if c == '&' then entPrefix cs else true) && ampOk cs

/-- A string is escape-safe: it contains no raw left angle bracket, no raw
double quote, and every ampersand in it starts an entity. -/
def escOk (s : String) : Prop :=
  noLtQt s.data = true ∧ ampOk s.data = true

theorem noLtQt_append (a b : List Char) :
    noLtQt (a ++ b) = (noLtQt a && noLtQt b) := by
  simp [noLtQt, List.all_append]

theorem noLtQt_escapeChar (c : Char) : noLtQt (htmlEscapeChar c) = true := by
  simp only [htmlEscapeChar]
  split
  · decide
  split
  · decide
  split
  · decide
  split
  · decide
  split
  · decide
  rename_i h1 h2 h3 h4 h5
  simp_all [noLtQt]

theorem ampOk_escapeChar_append (c : Char) (r : List Char) :
    ampOk (htmlEscapeChar c ++ r) = ampOk r := by
  simp only [htmlEscapeChar]
  split
  · simp [ampOk, entPrefix]
  split
  · simp [ampOk, entPrefix]
  split
  · simp [ampOk, entPrefix]
  split
  · simp [ampOk, entPrefix]
  split
  · simp [ampOk, entPrefix]
  rename_i h1 h2 h3 h4 h5
  simp_all [ampOk]

theorem noLtQt_escapeList (l : List Char) : noLtQt (htmlEscapeList l) = true := by
  induction l with
  | nil => decide
  | cons c cs ih =>
      simp [htmlEscapeList, noLtQt_append, noLtQt_escapeChar, ih]

theorem ampOk_escapeList (l : List Char) : ampOk (htmlEscapeList l) = true := by
  induction l with
  | nil => decide
  | cons c cs ih =>
      simp [htmlEscapeList, ampOk_escapeChar_append, ih]

theorem escOk_htmlEscape (s : String) : escOk (htmlEscape s) := by
  constructor
  · exact noLtQt_escapeList s.data
  · exact ampOk_escapeList s.data



mutual

/-- The inline subtree with every source-derived string escaped. -/
def escInline : Inline → Inline
  | Inline.text s => Inline.text (htmlEscape s)
  | Inline.emph cs => Inline.emph (escInlines cs)
  | Inline.strong cs => Inline.strong (escInlines cs)

/-- Escape every source-derived string of an inline sequence. -/
def escInlines : List Inline → List Inline
  | [] => []
  | i :: rest => escInline i :: escInlines rest

end

mutual

/-- The block subtree with every source-derived string escaped. -/
def escBlock : Block → Block
  | Block.heading n is => Block.heading n (escInlines is)
  | Block.paragraph is => Block.paragraph (escInlines is)
  | Block.codeFence info content => Block.codeFence (htmlEscape info) (htmlEscape content)
  | Block.directiveFence dn arg cs =>
      Block.directiveFence (htmlEscape dn) (htmlEscape arg) (escBlocks cs)
  | Block.thematicBreak => Block.thematicBreak

/-- Escape every source-derived string of a block sequence. -/
def escBlocks : List Block → List Block
  | [] => []
  | b :: rest => escBlock b :: escBlocks rest

end

/-- The document with every source-derived string escaped. -/
def escDoc (d : Doc) : Doc :=
  ⟨escBlocks d.blocks⟩

mutual

/-- Hypertext markup for an inline node with NO escaping: tree strings are
emitted verbatim. -/
def rawInline : Inline → String
  | Inline.text s => s
  | Inline.emph cs => "<em>" ++ rawInlines cs ++ "</em>"
  | Inline.strong cs => "<strong>" ++ rawInlines cs ++ "</strong>"

/-- Unescaped hypertext markup for an inline sequence. -/
def rawInlines : List Inline → String
  | [] => ""
  | i :: rest => rawInline i ++ rawInlines rest

end

mutual

/-- Hypertext markup for a block node with NO escaping. -/
def rawBlock : Block → String
  | Block.heading n is => "<h" ++ toString n ++ ">" ++ rawInlines is ++ "</h" ++ toString n ++ ">"
  | Block.paragraph is => "<p>" ++ rawInlines is ++ "</p>"
  | Block.codeFence info content =>
      "<pre><code class=\"language-" ++ info ++ "\">" ++ content ++ "</code></pre>"
  | Block.directiveFence dn _ cs =>
      "<div data-directive=\"" ++ dn ++ "\">" ++ rawBlocks cs ++ "</div>"
  | Block.thematicBreak => "<hr>"

/-- Unescaped hypertext markup for a block sequence. -/
def rawBlocks : List Block → String
  | [] => ""
  | b :: rest => rawBlock b ++ rawBlocks rest

end

/-- Unescaped hypertext markup for a document. -/
def rawDoc (d : Doc) : String :=
  rawBlocks d.blocks

mutual

theorem renderInline_esc (i : Inline) : renderInline i = rawInline (escInline i) := by
  cases i with
  | text s => rfl
  | emph cs => simp [renderInline, escInline, rawInline, renderInlines_esc cs]
  | strong cs => simp [renderInline, escInline, rawInline, renderInlines_esc cs]

theorem renderInlines_esc (is : List Inline) : renderInlines is = rawInlines (escInlines is) := by
  cases is with
  | nil => rfl
  | cons i tl => simp [renderInlines, escInlines, rawInlines, renderInline_esc i, renderInlines_esc tl]

end

mutual

theorem renderBlock_esc (b : Block) : renderBlock b = rawBlock (escBlock b) := by
  cases b with
  | heading n is => simp [renderBlock, escBlock, rawBlock, renderInlines_esc is]
  | paragraph is => simp [renderBlock, escBlock, rawBlock, renderInlines_esc is]
  | codeFence info content => rfl
  | directiveFence dn arg cs => simp [renderBlock, escBlock, rawBlock, renderBlocks_esc cs]
  | thematicBreak => rfl

theorem renderBlocks_esc (bs : List Block) : renderBlocks bs = rawBlocks (escBlocks bs) := by
  cases bs with
  | nil => rfl
  | cons b tl => simp [renderBlocks, escBlocks, rawBlocks, renderBlock_esc b, renderBlocks_esc tl]

end

/-- C5: every source-derived string in the hypertext output goes through the
five-character escape — the render of any tree equals the unescaped render of
the escaped tree — and the escape's output contains no raw left angle bracket
or double quote and only entity-starting ampersands; so literal reserved
characters in the source never appear unescaped in the output.  Attribute
values (directive name, fence info) take the same escape, which in
particular quote-escapes them. -/
theorem c5_escaping :
    (∀ s : String, escOk (htmlEscape s))
    ∧ (∀ d : Doc, renderHtmlDoc d = rawDoc (escDoc d))
    ∧ (∀ s : String, renderHtmlDoc (parseDoc s) = rawDoc (escDoc (parseDoc s)))
    ∧ renderHtmlDoc (parseDoc "a <b> & \"c\"") =
        "<p>a &lt;b&gt; &amp; &quot;c&quot;</p>" := by
  refine ⟨escOk_htmlEscape, fun d => ?_, fun s => ?_, rfl⟩
  · simp [renderHtmlDoc, rawDoc, escDoc, renderBlocks_esc]
  · simp [renderHtmlDoc, rawDoc, escDoc, renderBlocks_esc]
/-! ## Termination and the push/pop discipline of the delimiter stack (claim C9) -/


theorem delimIds_append (a b : List Elem) :
    delimIds (a ++ b) = delimIds a ++ delimIds b := by
  induction a with
  | nil => rfl
  | cons e rest ih => cases e <;> simp [delimIds, ih]

theorem totalDelimLen_append (a b : List Elem) :
    totalDelimLen (a ++ b) = totalDelimLen a + totalDelimLen b := by
  induction a with
  | nil => simp [totalDelimLen]
  | cons e rest ih => cases e <;> simp [totalDelimLen, ih, Nat.add_assoc]

theorem findOpenerRev_spec (c : Char) :
    ∀ (pre btw below : List Elem) (op : Delim),
      findOpenerRev c pre = some (btw, op, below) →
      pre = btw ++ Elem.delim op :: below ∧ 1 ≤ op.len := by
  intro pre
  induction pre with
  | nil => intro btw below op h; simp [findOpenerRev] at h
  | cons e rest ih =>
      intro btw below op h
      cases e with
      | node i =>
          simp only [findOpenerRev] at h
          cases hr : findOpenerRev c rest with
          | none => rw [hr] at h; simp at h
          | some r =>
              obtain ⟨btw', op', below'⟩ := r
              rw [hr] at h
              simp at h
              obtain ⟨h1, h2, h3⟩ := h
              obtain ⟨e1, e2⟩ := ih btw' below' op' hr
              subst h1 h2 h3
              constructor
              · simp [e1]
              · exact e2
      | delim d =>
          simp only [findOpenerRev] at h
          by_cases hc : (d.ch == c && d.canOpen && decide (1 ≤ d.len)) = true
          · rw [if_pos hc] at h
            simp at h
            obtain ⟨h1, h2, h3⟩ := h
            subst h1 h2 h3
            simp at hc
            exact ⟨by simp, hc.2⟩
          · rw [if_neg hc] at h
            cases hr : findOpenerRev c rest with
            | none => rw [hr] at h; simp at h
            | some r =>
                obtain ⟨btw', op', below'⟩ := r
                rw [hr] at h
                simp at h
                obtain ⟨h1, h2, h3⟩ := h
                obtain ⟨e1, e2⟩ := ih btw' below' op' hr
                subst h1 h2 h3
                constructor
                · simp [e1]
                · exact e2



theorem scanClosers_spec :
    ∀ (l preRev below : List Elem) (op : Delim) (btw : List Elem) (cl : Delim)
      (suf : List Elem),
      scanClosers preRev l = some (below, op, btw, cl, suf) →
      preRev.reverse ++ l =
        below.reverse ++ Elem.delim op :: btw.reverse ++ Elem.delim cl :: suf
      ∧ 1 ≤ op.len ∧ 1 ≤ cl.len := by
  intro l
  induction l with
  | nil => intro preRev below op btw cl suf h; simp [scanClosers] at h
  | cons e rest ih =>
      intro preRev below op btw cl suf h
      cases e with
      | node i =>
          simp only [scanClosers] at h
          have := ih (Elem.node i :: preRev) below op btw cl suf h
          simpa using this
      | delim d =>
          simp only [scanClosers] at h
          by_cases hc : (d.canClose && decide (1 ≤ d.len)) = true
          · rw [if_pos hc] at h
            cases hf : findOpenerRev d.ch preRev with
            | none =>
                rw [hf] at h
                have := ih (Elem.delim d :: preRev) below op btw cl suf h
                simpa using this
            | some r =>
                obtain ⟨btw', op', below'⟩ := r
                rw [hf] at h
                simp at h
                obtain ⟨h1, h2, h3, h4, h5⟩ := h
                subst h1 h2 h3 h4 h5
                obtain ⟨e1, e2⟩ := findOpenerRev_spec d.ch preRev btw' below' op' hf
                simp at hc
                refine ⟨?_, e2, hc.2⟩
                rw [e1]
                simp
          · rw [if_neg hc] at h
            have := ih (Elem.delim d :: preRev) below op btw cl suf h
            simpa using this



theorem emphStep_some (es es' : List Elem) (pops : List Nat)
    (h : emphStep es = some (es', pops)) :
    (delimIds es' ++ pops).Perm (delimIds es)
    ∧ totalDelimLen es' + 2 ≤ totalDelimLen es := by
  unfold emphStep at h
  cases hsc : scanClosers [] es with
  | none => rw [hsc] at h; simp at h
  | some r =>
      obtain ⟨below, op, btw, cl, suf⟩ := r
      rw [hsc] at h
      simp only [Option.some.injEq, Prod.mk.injEq] at h
      obtain ⟨hes', hpops⟩ := h
      obtain ⟨hdec, hop1, hcl1⟩ := scanClosers_spec es [] below op btw cl suf hsc
      simp at hdec
      set d := if 2 ≤ op.len ∧ 2 ≤ cl.len then 2 else 1 with hd
      have hdfacts : 1 ≤ d ∧ d ≤ op.len ∧ d ≤ cl.len := by
        rw [hd]; split
        · omega
        · omega
      subst hes' hpops
      rw [hdec]
      constructor
      · by_cases ho : d < op.len <;> by_cases hc : d < cl.len <;>
          simp only [ho, hc, if_pos, if_neg, if_true, if_false, reduceIte] <;>
          refine List.perm_iff_count.mpr (fun a => ?_) <;>
          simp [delimIds_append, delimIds, List.count_append, List.count_cons] <;>
          omega
      · by_cases ho : d < op.len <;> by_cases hc : d < cl.len <;>
          simp only [ho, hc, if_pos, if_neg, if_true, if_false, reduceIte] <;>
          simp [totalDelimLen_append, totalDelimLen] <;>
          omega



theorem processEmphT_perm : ∀ (n : Nat) (es : List Elem),
    (delimIds (processEmphT n es).1 ++ (processEmphT n es).2).Perm (delimIds es) := by
  intro n
  induction n with
  | zero => intro es; simp [processEmphT]
  | succ n ih =>
      intro es
      cases hs : emphStep es with
      | none => simp [processEmphT, hs]
      | some r =>
          obtain ⟨es', pops⟩ := r
          obtain ⟨hperm, _⟩ := emphStep_some es es' pops hs
          have ihp := ih es'
          simp only [processEmphT, hs]
          refine List.perm_iff_count.mpr (fun a => ?_)
          have h1 := List.perm_iff_count.mp hperm a
          have h2 := List.perm_iff_count.mp ihp a
          simp [List.count_append] at h1 h2 ⊢
          omega

theorem processEmphT_none (es : List Elem) (hs : emphStep es = none) :
    ∀ k, processEmphT k es = (es, []) := by
  intro k
  cases k with
  | zero => rfl
  | succ k => simp [processEmphT, hs]

theorem processEmphT_fuel : ∀ (n : Nat) (es : List Elem) (m : Nat),
    totalDelimLen es ≤ n → totalDelimLen es ≤ m →
    processEmphT n es = processEmphT m es := by
  intro n
  induction n with
  | zero =>
      intro es m hn hm
      cases hs : emphStep es with
      | none => rw [processEmphT_none es hs 0, processEmphT_none es hs m]
      | some r =>
          obtain ⟨es', pops⟩ := r
          obtain ⟨_, hmeas⟩ := emphStep_some es es' pops hs
          omega
  | succ n ih =>
      intro es m hn hm
      cases hs : emphStep es with
      | none => rw [processEmphT_none es hs (n + 1), processEmphT_none es hs m]
      | some r =>
          obtain ⟨es', pops⟩ := r
          obtain ⟨_, hmeas⟩ := emphStep_some es es' pops hs
          cases m with
          | zero => omega
          | succ m' =>
              simp only [processEmphT, hs]
              rw [ih es' m' (by omega) (by omega)]



/-- Positions of the delimiter tokens of a raw-token list. -/
def rawIds : List RawTok → List Nat
  | [] => []
  | RawTok.d pos _ _ _ :: rest => pos :: rawIds rest
  | RawTok.ch _ :: rest => rawIds rest

theorem rawToks_ids_ge : ∀ (cs : List Char) (prev : Option Char) (pos : Nat),
    ∀ q ∈ rawIds (rawToks prev pos cs), pos ≤ q := by
  intro cs
  induction cs with
  | nil => intro prev pos q hq; simp [rawToks, rawIds] at hq
  | cons c rest ih =>
      intro prev pos q hq
      simp only [rawToks] at hq
      by_cases hd : isDelimChar c = true
      · rw [if_pos hd] at hq
        simp only [rawIds, List.mem_cons] at hq
        cases hq with
        | inl h => omega
        | inr h => have := ih (some c) (pos + 1) q h; omega
      · rw [if_neg hd] at hq
        simp only [rawIds] at hq
        have := ih (some c) (pos + 1) q hq
        omega

theorem rawToks_ids_sorted : ∀ (cs : List Char) (prev : Option Char) (pos : Nat),
    (rawIds (rawToks prev pos cs)).Pairwise (· < ·) := by
  intro cs
  induction cs with
  | nil => intro prev pos; simp [rawToks, rawIds]
  | cons c rest ih =>
      intro prev pos
      simp only [rawToks]
      by_cases hd : isDelimChar c = true
      · rw [if_pos hd]
        simp only [rawIds]
        refine List.Pairwise.cons ?_ (ih (some c) (pos + 1))
        intro q hq
        have := rawToks_ids_ge rest (some c) (pos + 1) q hq
        omega
      · rw [if_neg hd]
        simp only [rawIds]
        exact ih (some c) (pos + 1)

theorem groupToks_ids_sublist : ∀ (ts : List RawTok),
    (delimIds (groupToks ts)).Sublist (rawIds ts) := by
  intro ts
  induction ts with
  | nil => simp [groupToks, delimIds, rawIds]
  | cons t rest ih =>
      cases t with
      | ch c =>
          simp only [groupToks, rawIds]
          cases hg : groupToks rest with
          | nil => simp [hg, delimIds]
          | cons hd tail =>
              cases hd with
              | node i =>
                  cases i with
                  | text s =>
                      rw [hg] at ih
                      simpa [delimIds] using ih
                  | emph cs =>
                      rw [hg] at ih
                      simpa [delimIds] using ih
                  | strong cs =>
                      rw [hg] at ih
                      simpa [delimIds] using ih
              | delim d =>
                  rw [hg] at ih
                  simpa [delimIds] using ih
      | d pos c prev next =>
          simp only [groupToks, rawIds]
          cases hg : groupToks rest with
          | nil =>
              rw [hg] at ih
              dsimp only
              simp only [delimIds] at ih ⊢
              exact List.Sublist.cons₂ pos ih
          | cons hd tail =>
              cases hd with
              | node i =>
                  rw [hg] at ih
                  dsimp only
                  simp only [delimIds] at ih ⊢
                  exact List.Sublist.cons₂ pos ih
              | delim dd =>
                  rw [hg] at ih
                  dsimp only
                  by_cases hm : (c == dd.ch && pos + 1 == dd.pos) = true
                  · rw [if_pos hm]
                    simp only [delimIds] at ih ⊢
                    have htail : (delimIds tail).Sublist (rawIds rest) := by
                      have hsub : (delimIds tail).Sublist (dd.pos :: delimIds tail) :=
                        List.sublist_cons_self dd.pos (delimIds tail)
                      exact hsub.trans ih
                    exact List.Sublist.cons₂ pos htail
                  · rw [if_neg hm]
                    simp only [delimIds] at ih ⊢
                    exact List.Sublist.cons₂ pos ih



/-- C9: the delimiter-stack pass over any finite input terminates — running
it with its delimiter-length fuel budget already reaches the fixpoint, extra
fuel changes nothing — each delimiter run is pushed exactly once (the pushed
positions are pairwise distinct), and each is popped at most once (the popped
positions are pairwise distinct and drawn from the pushed ones).  All other
passes of the modelled parse are structural recursions over finite data. -/
theorem c9_termination_push_pop (s : String) :
    (∀ k : Nat,
        processEmphT (totalDelimLen (inlineElems s.data) + k) (inlineElems s.data) =
          processEmphT (totalDelimLen (inlineElems s.data)) (inlineElems s.data))
    ∧ (delimIds (inlineElems s.data)).Nodup
    ∧ (processEmphT (totalDelimLen (inlineElems s.data)) (inlineElems s.data)).2.Nodup
    ∧ (processEmphT (totalDelimLen (inlineElems s.data)) (inlineElems s.data)).2 ⊆
        delimIds (inlineElems s.data) := by
  have hpush : (delimIds (inlineElems s.data)).Nodup := by
    have hsub := groupToks_ids_sublist (rawToks none 0 s.data)
    have hsort := rawToks_ids_sorted s.data none 0
    have hpw := List.Pairwise.sublist hsub hsort
    exact hpw.imp Nat.ne_of_lt
  have hperm := processEmphT_perm (totalDelimLen (inlineElems s.data)) (inlineElems s.data)
  have hnodup :
      ((delimIds (processEmphT (totalDelimLen (inlineElems s.data)) (inlineElems s.data)).1)
        ++ (processEmphT (totalDelimLen (inlineElems s.data)) (inlineElems s.data)).2).Nodup :=
    (hperm.nodup_iff).mpr hpush
  refine ⟨fun k => processEmphT_fuel _ _ _ (by omega) (by omega), hpush,
    hnodup.of_append_right, fun p hp => ?_⟩
  exact hperm.mem_iff.mp (List.mem_append_right _ hp)

end Atrus
